import Mathlib

/-!
# Verification of the pconcat repository (`pjoin` and `s3pjoin`)

This file shallowly embeds the two binaries of the repository and settles the
frozen claims about them.

The program (src/pjoin/src/main.rs and src/s3pjoin/src/main.rs) reads one task
descriptor per input line, launches up to `parallel_count` producer threads
concurrently through the `futures` crate's order-preserving `buffered`
combinator, and drains each task's bounded `sync_channel` strictly in input
order, forwarding every received chunk to a writer (a buffered file writer, or
a `vmsplice` loop when writing to stdout).

Modelling conventions:
* bytes are `Nat`, a chunk is a `List Nat`, a task's produced data is a
  `List (List Nat)` of chunks;
* machine reads, channel states and kernel transfer sizes are supplied by the
  environment as explicit lists, constrained exactly as the corresponding
  OS primitive constrains them;
* loops of the source become structurally recursive Lean functions (with an
  explicit fuel parameter where the Rust loop's termination is data driven);
* a Rust `panic!`/failed `assert!`/`unwrap` on the main path is modelled as an
  explicit outcome constructor, since it determines the process exit status.
-/

/-- Source constant `CHUNK_BUFFER_SIZE` (2 MiB): the fixed chunk capacity used
by the pjoin producer thread and by the channel-depth computation. -/
def CHUNK_BUFFER_SIZE : Nat := 2 * 1024 * 1024

/-- Source constant `DEFAULT_CONCURRENT_LIMIT`. -/
def DEFAULT_CONCURRENT_LIMIT : Nat := 16

/-- Source constant `DEFAULT_BUFFER_SIZE` (1 GiB). -/
def DEFAULT_BUFFER_SIZE : Nat := 1 <<< 30

/-- The capacity passed to `sync_channel` in both binaries:
`args.buffer_size / CHUNK_BUFFER_SIZE` (integer division, no lower bound). -/
def sync_channel_capacity (buffer_size : Nat) : Nat :=
  buffer_size / CHUNK_BUFFER_SIZE

/-- Total number of bytes held in a list of chunks. -/
def totalBytes (chunks : List (List Nat)) : Nat :=
  (chunks.map List.length).sum

/-!
## The pjoin producer thread

The spawned thread of `pjoin` runs, per chunk:

* allocate a buffer of capacity `CHUNK_BUFFER_SIZE`;
* `while bytes_read <= CHUNK_BUFFER_SIZE`: `read` into
  `buffer[bytes_read..CHUNK_BUFFER_SIZE]`; a return of `0` breaks the loop
  (`read` returns `0` exactly when the slice is empty — buffer full — or
  at end of stream);
* truncate to `bytes_read`; if `bytes_read == 0`, wait for the child and
  break, else `tx.send(buffer)`.

The environment (the child process's pipe) is modelled as the list `rs` of
successive non-empty `read` results; the byte source reaches end of stream
when `rs` is exhausted (or when it hands back an empty result).  A real `read`
never returns more bytes than the free space of the slice it was given, which
the model enforces by truncating each environment result with `List.take`.

`fuel` makes the recursion structural; `produceLoop` supplies enough fuel for
the loop to run to completion (each step either consumes one environment read
or pushes a full chunk, and at most one full chunk is pushed per consumed
read, so `2 * rs.length + 1` steps always suffice).
-/

/-- One producer thread of `pjoin`, as the list of chunks it sends into its
`sync_channel`, driven by the environment reads `rs` starting from a partially
filled buffer `acc`. -/
def produceLoopF : Nat → List (List Nat) → List Nat → List (List Nat)
  | 0, _, _ => []
  | _ + 1, [], acc => if acc.isEmpty then [] else [acc]
  | fuel + 1, r :: rest, acc =>
    if CHUNK_BUFFER_SIZE ≤ acc.length then
      acc :: produceLoopF fuel (r :: rest) []
    else
      let piece := r.take (CHUNK_BUFFER_SIZE - acc.length)
      if piece.isEmpty then (if acc.isEmpty then [] else [acc])
      else produceLoopF fuel rest (acc ++ piece)

/-- The chunks the `pjoin` producer thread pushes for a source whose
successive `read` results are `rs`. -/
def produceLoop (rs : List (List Nat)) : List (List Nat) :=
  produceLoopF (2 * rs.length + 1) rs []

/-- Every chunk the producer pushes is non-empty and holds at most
`CHUNK_BUFFER_SIZE` bytes. -/
theorem produceLoopF_chunk_bound (fuel : Nat) :
    ∀ (rs : List (List Nat)) (acc : List Nat),
      acc.length ≤ CHUNK_BUFFER_SIZE →
      ∀ c ∈ produceLoopF fuel rs acc, c.length ≤ CHUNK_BUFFER_SIZE ∧ c ≠ [] := by
  induction fuel with
  | zero => intro rs acc _ c hc; simp [produceLoopF] at hc
  | succ fuel ih =>
    intro rs acc hacc c hc
    match rs with
    | [] =>
      simp only [produceLoopF] at hc
      by_cases he : acc.isEmpty
      · simp [he] at hc
      · simp [he] at hc
        subst hc
        exact ⟨hacc, by simpa [List.isEmpty_iff] using he⟩
    | r :: rest =>
      simp only [produceLoopF] at hc
      by_cases hfull : CHUNK_BUFFER_SIZE ≤ acc.length
      · simp only [hfull, if_true, List.mem_cons] at hc
        rcases hc with rfl | hc
        · refine ⟨hacc, ?_⟩
          intro h
          subst h
          simp [CHUNK_BUFFER_SIZE] at hfull
        · exact ih (r :: rest) [] (by simp) c hc
      · simp only [hfull, if_false] at hc
        by_cases hp : (r.take (CHUNK_BUFFER_SIZE - acc.length)).isEmpty
        · by_cases he : acc.isEmpty
          · simp [hp, he] at hc
          · simp [hp, he] at hc
            subst hc
            exact ⟨hacc, by simpa [List.isEmpty_iff] using he⟩
        · simp only [hp, if_false] at hc
          refine ih rest _ ?_ c hc
          have h1 : (r.take (CHUNK_BUFFER_SIZE - acc.length)).length
              ≤ CHUNK_BUFFER_SIZE - acc.length := by
            simp [List.length_take]
          simp only [List.length_append]
          omega

theorem produceLoop_chunk_bound (rs : List (List Nat)) :
    ∀ c ∈ produceLoop rs, c.length ≤ CHUNK_BUFFER_SIZE ∧ c ≠ [] :=
  produceLoopF_chunk_bound _ rs [] (by simp)

/-- Every pushed chunk except possibly the last one is exactly full
(`CHUNK_BUFFER_SIZE` bytes): a chunk is pushed either because the buffer
became full, or — only for the final chunk — because the source reached end
of stream with a non-empty residue. -/
theorem produceLoopF_dropLast_full (fuel : Nat) :
    ∀ (rs : List (List Nat)) (acc : List Nat),
      acc.length ≤ CHUNK_BUFFER_SIZE →
      ∀ c ∈ (produceLoopF fuel rs acc).dropLast, c.length = CHUNK_BUFFER_SIZE := by
  induction fuel with
  | zero => intro rs acc _ c hc; simp [produceLoopF] at hc
  | succ fuel ih =>
    intro rs acc hacc c hc
    match rs with
    | [] =>
      simp only [produceLoopF] at hc
      by_cases he : acc.isEmpty
      · simp [he] at hc
      · simp [he] at hc
    | r :: rest =>
      simp only [produceLoopF] at hc
      by_cases hfull : CHUNK_BUFFER_SIZE ≤ acc.length
      · simp only [hfull, if_true] at hc
        rcases h : produceLoopF fuel (r :: rest) [] with _ | ⟨d, ds⟩
        · simp [h, List.dropLast] at hc
        · rw [h, List.dropLast_cons₂, List.mem_cons] at hc
          rcases hc with rfl | hc
          · omega
          · exact ih (r :: rest) [] (by simp) c (by rw [h]; exact hc)
      · simp only [hfull, if_false] at hc
        by_cases hp : (r.take (CHUNK_BUFFER_SIZE - acc.length)).isEmpty
        · by_cases he : acc.isEmpty
          · simp [hp, he] at hc
          · simp [hp, he] at hc
        · simp only [hp, if_false] at hc
          refine ih rest _ ?_ c hc
          have h1 : (r.take (CHUNK_BUFFER_SIZE - acc.length)).length
              ≤ CHUNK_BUFFER_SIZE - acc.length := by
            simp [List.length_take]
          simp only [List.length_append]
          omega

/-!
## The s3pjoin producer thread

The `s3pjoin` worker thread forwards every frame of the response body stream
unchanged: `while let Some(bytes) = response.body.try_next().await.unwrap()
{ tx.send(bytes).unwrap(); }`.  There is no re-chunking and no bound on the
size of a frame — frame sizes are chosen by the SDK/network, i.e. by the
environment. -/
def s3ProduceLoop (frames : List (List Nat)) : List (List Nat) :=
  frames

/-!
## Scheduler and drain loop

`main` builds `stream::iter(stdin.lines()).map(spawn-task).buffered(P)` and
feeds it to `collect_and_write_data`.  The `map` closure spawns the producer
thread (this is the task's launch), so a task is launched exactly when the
`buffered` adapter polls the mapped stream.  `Buffered::poll_next` first
launches tasks until `P` of them are in its queue (or input is exhausted),
then yields the *front* pair — so pairs come out in input order, and when pair
`i` is yielded, tasks `0 .. min (i + P) N - 1` have been launched while only
tasks `0 .. i - 1` have been joined.  With `P = 0` the adapter never polls the
mapped stream and never yields: `block_on` then waits forever (the run hangs),
for empty and non-empty input alike.

`collect_and_write_data` receives the pairs in that order; for each pair it
receives chunks until the channel is closed, forwarding each to `write_fn`,
then joins the thread; a failed task's thread panics (failed `assert!` on the
exit status, or `unwrap` on a fetch error) after having sent every chunk it
produced, so the drain still receives all its buffered chunks, and the
following `join().unwrap()` panics in `main`, ending the process with a
non-zero status before any later pair is drained.
-/

/-- One task as the drain loop sees it: the chunks its producer sends into the
channel before finishing, and whether its byte source completed successfully
(`ok = false` models the producer thread panicking after its last send). -/
structure PTask where
  chunks : List (List Nat)
  ok : Bool
deriving DecidableEq, Repr

/-- All bytes a task produces, in order. -/
def taskBytes (t : PTask) : List Nat :=
  t.chunks.flatten

/-- Observable events of a run: a task's producer thread is spawned, a chunk
is handed to the writer, a task's thread is joined (with its outcome). -/
inductive Event where
  | launch : Nat → Event
  | write : List Nat → Event
  | join : Nat → Bool → Event
deriving DecidableEq, Repr

/-- How the process ends: normal exit 0, panic (non-zero exit) at the join of
the given task, or no termination at all (`block_on` pending forever). -/
inductive Outcome where
  | success : Outcome
  | failure : Nat → Outcome
  | hang : Outcome
deriving DecidableEq, Repr

/-- The event trace and outcome of the run from the point where tasks
`0 .. done - 1` are drained and joined and tasks `0 .. launched - 1` are
launched, with `rem` the not-yet-drained tasks, under concurrency limit `P`.
Faithful to `Buffered::poll_next` + `collect_and_write_data`: before pair
`done` is yielded the adapter tops its queue up to `min (done + P) N` launched
tasks; the drain then forwards all of the task's chunks and joins it. -/
def runFrom (P done launched : Nat) : List PTask → List Event × Outcome
  | [] => if P = 0 then ([], Outcome.hang) else ([], Outcome.success)
  | t :: ts =>
    if P = 0 then ([], Outcome.hang)
    else
      let target := min (done + P) (done + (t :: ts).length)
      let evs := (List.range' launched (target - launched)).map Event.launch
        ++ t.chunks.map Event.write ++ [Event.join done t.ok]
      if t.ok then
        let rest := runFrom P (done + 1) target ts
        (evs ++ rest.1, rest.2)
      else (evs, Outcome.failure done)

/-- A whole run of `pjoin`/`s3pjoin` on the (already parsed) input task list,
with concurrency limit `P`. -/
def runMain (P : Nat) (tasks : List PTask) : List Event × Outcome :=
  runFrom P 0 0 tasks

/-- The chunks a trace hands to the writer, in order. -/
def writesOf (evs : List Event) : List (List Nat) :=
  evs.filterMap fun e =>
    match e with
    | Event.write c => some c
    | _ => none

/-- The byte stream a trace delivers to the destination. -/
def outputBytes (evs : List Event) : List Nat :=
  (writesOf evs).flatten

/-- Number of producer threads spawned in a trace. -/
def countLaunch (evs : List Event) : Nat :=
  evs.countP fun e =>
    match e with
    | Event.launch _ => true
    | _ => false

/-- Number of producer threads joined in a trace. -/
def countJoin (evs : List Event) : Nat :=
  evs.countP fun e =>
    match e with
    | Event.join _ _ => true
    | _ => false

/-- Source function `collect_and_write_data`, abstracted over the admission
machinery: drain the pairs in order; for each, forward every chunk, then join;
a failed join ends the run (panic).  Returns the chunks handed to `write_fn`
and whether every joined task succeeded. -/
def collect_and_write_data : List PTask → List (List Nat) × Bool
  | [] => ([], true)
  | t :: ts =>
    if t.ok then
      let r := collect_and_write_data ts
      (t.chunks ++ r.1, r.2)
    else (t.chunks, false)

theorem writesOf_append (a b : List Event) :
    writesOf (a ++ b) = writesOf a ++ writesOf b :=
  List.filterMap_append a b _

theorem writesOf_launches (l n : Nat) :
    writesOf ((List.range' l n).map Event.launch) = [] := by
  simp [writesOf, List.filterMap_map, Function.comp]

theorem writesOf_writes (cs : List (List Nat)) :
    writesOf (cs.map Event.write) = cs := by
  induction cs with
  | nil => rfl
  | cons c cs ih => simp [writesOf, List.filterMap_cons] at ih ⊢; exact ih

theorem writesOf_join (i : Nat) (b : Bool) :
    writesOf [Event.join i b] = [] := by
  simp [writesOf]

theorem countLaunch_append (a b : List Event) :
    countLaunch (a ++ b) = countLaunch a + countLaunch b :=
  List.countP_append _ a b

theorem countJoin_append (a b : List Event) :
    countJoin (a ++ b) = countJoin a + countJoin b :=
  List.countP_append _ a b

theorem countLaunch_map_launch (xs : List Nat) :
    countLaunch (xs.map Event.launch) = xs.length := by
  induction xs with
  | nil => rfl
  | cons x xs ih => simp [countLaunch, List.countP_cons] at ih ⊢

theorem countLaunch_launches (l n : Nat) :
    countLaunch ((List.range' l n).map Event.launch) = n := by
  rw [countLaunch_map_launch, List.length_range']

theorem countJoin_launches (l n : Nat) :
    countJoin ((List.range' l n).map Event.launch) = 0 := by
  simp [countJoin, List.countP_map, Function.comp, List.countP_false]

theorem countLaunch_writes (cs : List (List Nat)) :
    countLaunch (cs.map Event.write) = 0 := by
  simp [countLaunch, List.countP_map, Function.comp, List.countP_false]

theorem countJoin_writes (cs : List (List Nat)) :
    countJoin (cs.map Event.write) = 0 := by
  simp [countJoin, List.countP_map, Function.comp, List.countP_false]

theorem countLaunch_join (i : Nat) (b : Bool) :
    countLaunch [Event.join i b] = 0 := by
  simp [countLaunch, List.countP_cons]

theorem countJoin_join (i : Nat) (b : Bool) :
    countJoin [Event.join i b] = 1 := by
  simp [countJoin, List.countP_cons]

/-- The chunks the whole pipeline forwards to the writer are exactly the
chunks the plain sequential drain `collect_and_write_data` forwards: the
`buffered` admission machinery launches tasks early but never reorders the
pairs it yields. -/
theorem runFrom_writes_eq_collect (P : Nat) (hP : P ≠ 0) :
    ∀ (rem : List PTask) (done launched : Nat),
      writesOf (runFrom P done launched rem).1 = (collect_and_write_data rem).1 := by
  intro rem
  induction rem with
  | nil => intro done launched; simp [runFrom, hP, collect_and_write_data, writesOf]
  | cons t ts ih =>
    intro done launched
    simp only [runFrom, hP, if_false, collect_and_write_data]
    by_cases hok : t.ok
    · simp only [hok, if_true]
      rw [writesOf_append, writesOf_append, writesOf_append,
        writesOf_launches, writesOf_writes, writesOf_join, ih]
      simp
    · simp only [hok, Bool.false_eq_true, if_false]
      rw [writesOf_append, writesOf_append,
        writesOf_launches, writesOf_writes, writesOf_join]
      simp

/-- On an all-success task list, the sequential drain forwards every chunk of
every task, in task order, and reports success. -/
theorem collect_ok (tasks : List PTask) (h : ∀ t ∈ tasks, t.ok = true) :
    (collect_and_write_data tasks).1.flatten = (tasks.map taskBytes).flatten ∧
      (collect_and_write_data tasks).2 = true := by
  induction tasks with
  | nil => simp [collect_and_write_data]
  | cons t ts ih =>
    have ht : t.ok = true := h t (by simp)
    have hts : ∀ u ∈ ts, u.ok = true := fun u hu => h u (by simp [hu])
    obtain ⟨h1, h2⟩ := ih hts
    simp only [collect_and_write_data, ht, if_true, List.map_cons,
      List.flatten_cons, List.flatten_append]
    exact ⟨by rw [h1, taskBytes], h2⟩

/-- On an all-success suffix the run finishes with a normal exit. -/
theorem runFrom_ok_outcome (P : Nat) (hP : P ≠ 0) :
    ∀ (rem : List PTask) (done launched : Nat), (∀ t ∈ rem, t.ok = true) →
      (runFrom P done launched rem).2 = Outcome.success := by
  intro rem
  induction rem with
  | nil => intro done launched _; simp [runFrom, hP]
  | cons t ts ih =>
    intro done launched h
    have ht := h t (by simp)
    simp only [runFrom, hP, if_false, ht, if_true]
    exact ih (done + 1) _ (fun u hu => h u (by simp [hu]))

/-- Generalized in-flight bound: every stopping point `q` of the trace has
seen at most `P` more launches than joins (relative to the `done`/`launched`
bookkeeping the trace starts from). -/
theorem runFrom_inflight (P : Nat) :
    ∀ (rem : List PTask) (done launched : Nat) (q r : List Event),
      launched ≤ done + P → launched ≤ done + rem.length →
      (runFrom P done launched rem).1 = q ++ r →
      launched + countLaunch q ≤ done + countJoin q + P := by
  intro rem
  induction rem with
  | nil =>
    intro done launched q r h1 _ heq
    by_cases hP : P = 0 <;>
      simp [runFrom, hP] at heq <;>
      obtain ⟨hq, -⟩ := heq <;>
      subst hq <;>
      simpa [countLaunch, countJoin] using h1
  | cons t ts ih =>
    intro done launched q r h1 h2 heq
    by_cases hP : P = 0
    · simp [runFrom, hP] at heq
      obtain ⟨hq, -⟩ := heq
      subst hq
      simpa [countLaunch, countJoin] using h1
    · have hlt : launched ≤ min (done + P) (done + (t :: ts).length) :=
        le_min h1 h2
      simp only [runFrom, hP, if_false] at heq
      by_cases hok : t.ok
      · simp only [hok, if_true] at heq
        rcases List.append_eq_append_iff.1 heq with ⟨a2, hq, hrest⟩ | ⟨c2, hevs, -⟩
        · have hih := ih (done + 1)
            (min (done + P) (done + (t :: ts).length)) a2 r
            (by simp only [List.length_cons] at *; omega)
            (by simp only [List.length_cons] at *; omega) hrest
          subst hq
          simp only [countLaunch_append, countJoin_append, countLaunch_launches,
            countLaunch_writes, countLaunch_join, countJoin_launches,
            countJoin_writes, countJoin_join] at *
          omega
        · have hcount := congrArg countLaunch hevs
          simp only [countLaunch_append, countLaunch_launches,
            countLaunch_writes, countLaunch_join] at hcount
          have htm : min (done + P) (done + (t :: ts).length) ≤ done + P :=
            min_le_left _ _
          omega
      · simp only [hok, Bool.false_eq_true, if_false] at heq
        have hcount := congrArg countLaunch heq
        simp only [countLaunch_append, countLaunch_launches,
          countLaunch_writes, countLaunch_join] at hcount
        have htm : min (done + P) (done + (t :: ts).length) ≤ done + P :=
          min_le_left _ _
        omega

theorem flatten_chunks (ts : List PTask) :
    (ts.map PTask.chunks).flatten.flatten = (ts.map taskBytes).flatten := by
  induction ts with
  | nil => rfl
  | cons t ts ih =>
    simp only [List.map_cons, List.flatten_cons, List.flatten_append, ih,
      taskBytes]

/-- C1: in an all-success run the bytes delivered to the writer are exactly
the concatenation of the tasks' bytes, in input order (each task's bytes
contiguous, before the next task's), the run exits successfully, and the
output length is the sum of the tasks' byte counts.  The first conjunct ties
the full pipeline (admission window included) to the sequential drain
`collect_and_write_data`. -/
theorem all_success_output_concat (P : Nat) (tasks : List PTask)
    (hP : 1 ≤ P) (hok : ∀ t ∈ tasks, t.ok = true) :
    writesOf (runMain P tasks).1 = (collect_and_write_data tasks).1 ∧
    outputBytes (runMain P tasks).1 = (tasks.map taskBytes).flatten ∧
    (runMain P tasks).2 = Outcome.success ∧
    (outputBytes (runMain P tasks).1).length
      = (tasks.map fun t => (taskBytes t).length).sum := by
  have hP0 : P ≠ 0 := by omega
  have hw := runFrom_writes_eq_collect P hP0 tasks 0 0
  obtain ⟨hb, -⟩ := collect_ok tasks hok
  have hbytes : outputBytes (runMain P tasks).1 = (tasks.map taskBytes).flatten := by
    rw [outputBytes, runMain, hw, hb]
  refine ⟨hw, hbytes, runFrom_ok_outcome P hP0 tasks 0 0 hok, ?_⟩
  rw [hbytes, List.length_flatten, List.map_map]
  rfl

/-- Witness for C1 at a concrete input: two tasks, concurrency 2. -/
theorem all_success_output_concat_witness :
    outputBytes (runMain 2 [⟨[[1, 2], [3]], true⟩, ⟨[[4]], true⟩]).1 = [1, 2, 3, 4] ∧
    (runMain 2 [⟨[[1, 2], [3]], true⟩, ⟨[[4]], true⟩]).2 = Outcome.success := by
  have h := all_success_output_concat 2 [⟨[[1, 2], [3]], true⟩, ⟨[[4]], true⟩]
    (by decide) (by decide)
  exact ⟨by rw [h.2.1]; decide, h.2.2.1⟩

/-- C2: at every stopping point of a run with concurrency limit `P`, the
number of producer threads spawned but not yet joined is at most `P` (stated
as: launches never outrun joins by more than `P` in any trace decomposition
`q ++ r`). -/
theorem concurrency_window_bound (P : Nat) (tasks : List PTask)
    (q r : List Event) (h : (runMain P tasks).1 = q ++ r) :
    countLaunch q ≤ countJoin q + P := by
  have := runFrom_inflight P tasks 0 0 q r (by omega) (by omega) h
  omega

/-- Witness for C2: concurrency 1, two tasks; at the instant just after the
second launch, one thread is in flight. -/
theorem concurrency_window_bound_witness :
    (runMain 1 [⟨[[1]], true⟩, ⟨[[2]], true⟩]).1
      = [Event.launch 0, Event.write [1], Event.join 0 true, Event.launch 1]
        ++ [Event.write [2], Event.join 1 true] ∧
    countLaunch [Event.launch 0, Event.write [1], Event.join 0 true, Event.launch 1]
      ≤ countJoin [Event.launch 0, Event.write [1], Event.join 0 true, Event.launch 1]
        + 1 := by
  refine ⟨by decide, ?_⟩
  exact concurrency_window_bound 1 [⟨[[1]], true⟩, ⟨[[2]], true⟩]
    [Event.launch 0, Event.write [1], Event.join 0 true, Event.launch 1]
    [Event.write [2], Event.join 1 true] (by decide)

/-- If every task before position `k` succeeds and task `k` fails, the run
panics at task `k`'s join, after having forwarded all of the earlier tasks'
bytes and all chunks task `k` pushed before failing, and nothing else. -/
theorem runFrom_first_failure (P : Nat) (hP : P ≠ 0) :
    ∀ (pre : List PTask) (t : PTask) (post : List PTask) (done launched : Nat),
      (∀ u ∈ pre, u.ok = true) → t.ok = false →
      (runFrom P done launched (pre ++ t :: post)).2
          = Outcome.failure (done + pre.length) ∧
      writesOf (runFrom P done launched (pre ++ t :: post)).1
          = (pre.map PTask.chunks).flatten ++ t.chunks := by
  intro pre
  induction pre with
  | nil =>
    intro t post done launched _ ht
    simp only [List.nil_append, runFrom, hP, if_false, ht,
      Bool.false_eq_true, List.length_nil, Nat.add_zero]
    constructor
    · trivial
    · rw [writesOf_append, writesOf_append, writesOf_launches,
        writesOf_writes, writesOf_join]
      simp
  | cons p pre ih =>
    intro t post done launched hpre ht
    have hp : p.ok = true := hpre p (by simp)
    have hpre' : ∀ u ∈ pre, u.ok = true := fun u hu => hpre u (by simp [hu])
    have hih := ih t post (done + 1)
      (min (done + P) (done + (p :: (pre ++ t :: post)).length)) hpre' ht
    simp only [List.cons_append, runFrom, hP, if_false, hp, if_true,
      List.append_eq]
    constructor
    · rw [hih.1]
      simp only [List.length_cons]
      congr 1
      omega
    · rw [writesOf_append, writesOf_append, writesOf_append, writesOf_launches,
        writesOf_writes, writesOf_join, hih.2]
      simp [List.append_assoc]

/-- C7: when task `k` is the first failing task, the run ends with a panic
(non-zero exit) attributed to task `k`, the destination receives all bytes of
tasks before `k` followed by exactly the bytes task `k` pushed before its
failure was discovered, and no byte of any later task. -/
theorem task_failure_fail_fast (P : Nat) (pre : List PTask) (t : PTask)
    (post : List PTask) (hP : 1 ≤ P) (hpre : ∀ u ∈ pre, u.ok = true)
    (ht : t.ok = false) :
    (runMain P (pre ++ t :: post)).2 = Outcome.failure pre.length ∧
    outputBytes (runMain P (pre ++ t :: post)).1
      = (pre.map taskBytes).flatten ++ taskBytes t := by
  have hP0 : P ≠ 0 := by omega
  obtain ⟨h1, h2⟩ := runFrom_first_failure P hP0 pre t post 0 0 hpre ht
  refine ⟨by rw [runMain, h1, Nat.zero_add], ?_⟩
  rw [outputBytes, runMain, h2, List.flatten_append, flatten_chunks, taskBytes]

/-- Witness for C7: task 1 (0-indexed) fails after pushing two chunks; the
run fails at task 1, output is task 0's bytes then task 1's buffered bytes,
and none of task 2's bytes. -/
theorem task_failure_fail_fast_witness :
    (runMain 1 ([⟨[[7]], true⟩] ++ ⟨[[8], [9]], false⟩ :: [⟨[[5]], true⟩])).2
        = Outcome.failure 1 ∧
    outputBytes
        (runMain 1 ([⟨[[7]], true⟩] ++ ⟨[[8], [9]], false⟩ :: [⟨[[5]], true⟩])).1
      = [7, 8, 9] := by
  have h := task_failure_fail_fast 1 [⟨[[7]], true⟩] ⟨[[8], [9]], false⟩
    [⟨[[5]], true⟩] (by decide) (by decide) (by decide)
  exact ⟨h.1, by rw [h.2]; decide⟩

/-- C9: an empty input yields an empty trace, zero output bytes, and a
successful exit. -/
theorem empty_input_success (P : Nat) (hP : 1 ≤ P) :
    (runMain P []).1 = [] ∧ outputBytes (runMain P []).1 = [] ∧
    (runMain P []).2 = Outcome.success := by
  have hP0 : P ≠ 0 := by omega
  simp [runMain, runFrom, hP0, outputBytes, writesOf]

/-- Witness for C9 at the default concurrency limit. -/
theorem empty_input_success_witness :
    (runMain DEFAULT_CONCURRENT_LIMIT []).1 = [] ∧
    outputBytes (runMain DEFAULT_CONCURRENT_LIMIT []).1 = [] ∧
    (runMain DEFAULT_CONCURRENT_LIMIT []).2 = Outcome.success :=
  empty_input_success DEFAULT_CONCURRENT_LIMIT (by decide)

/-!
## Channel capacity and the per-task byte bound (claims C3, C5)

`sync_channel(cap)` is a bounded FIFO holding at most `cap` queued messages;
any reachable queue content is a contiguous segment of the sequence of sent
chunks, of length at most `cap`.  A channel state is therefore modelled as a
decomposition `sent = pre ++ queued ++ suf` together with
`queued.length ≤ cap`.
-/

/-- C5 counterexample: with `buffer_size = 1` the depth passed to
`sync_channel` is `0` — a rendezvous channel — not the claimed minimum of 1.
-/
theorem channel_depth_no_minimum_cex :
    sync_channel_capacity 1 = 0 ∧ ¬ 1 ≤ sync_channel_capacity 1 := by
  decide

/-- C5 amended: the channel depth is exactly the floor of
`buffer_size / CHUNK_BUFFER_SIZE`, with no lower bound imposed: it is at
least 1 exactly when `buffer_size` is at least one chunk capacity. -/
theorem channel_depth_floor (buffer_size : Nat) :
    sync_channel_capacity buffer_size * CHUNK_BUFFER_SIZE ≤ buffer_size ∧
    buffer_size < (sync_channel_capacity buffer_size + 1) * CHUNK_BUFFER_SIZE ∧
    (1 ≤ sync_channel_capacity buffer_size ↔ CHUNK_BUFFER_SIZE ≤ buffer_size) := by
  unfold sync_channel_capacity CHUNK_BUFFER_SIZE
  omega

/-- C3 amended (subprocess variant): every reachable state of a task's
channel — a contiguous segment `queued` of the producer's sent chunks with at
most `sync_channel_capacity buffer_size` entries — buffers at most
`buffer_size` bytes, because every pjoin chunk is at most
`CHUNK_BUFFER_SIZE` bytes. -/
theorem pjoin_channel_byte_bound (buffer_size : Nat) (rs : List (List Nat))
    (queued pre suf : List (List Nat))
    (hstate : produceLoop rs = pre ++ queued ++ suf)
    (hcap : queued.length ≤ sync_channel_capacity buffer_size) :
    totalBytes queued ≤ buffer_size := by
  have hmem : ∀ x ∈ queued.map List.length, x ≤ CHUNK_BUFFER_SIZE := by
    intro x hx
    obtain ⟨c, hc, rfl⟩ := List.mem_map.1 hx
    refine (produceLoop_chunk_bound rs c ?_).1
    rw [hstate]
    simp [hc]
  have hsum := List.sum_le_card_nsmul (queued.map List.length)
    CHUNK_BUFFER_SIZE hmem
  rw [List.length_map, smul_eq_mul] at hsum
  have hdiv : sync_channel_capacity buffer_size * CHUNK_BUFFER_SIZE
      ≤ buffer_size := by
    unfold sync_channel_capacity CHUNK_BUFFER_SIZE
    omega
  have hmul : queued.length * CHUNK_BUFFER_SIZE
      ≤ sync_channel_capacity buffer_size * CHUNK_BUFFER_SIZE :=
    Nat.mul_le_mul_right _ hcap
  calc totalBytes queued ≤ queued.length * CHUNK_BUFFER_SIZE := hsum
    _ ≤ sync_channel_capacity buffer_size * CHUNK_BUFFER_SIZE := hmul
    _ ≤ buffer_size := hdiv

/-- Witness for the amended C3 at a concrete channel state. -/
theorem pjoin_channel_byte_bound_witness :
    produceLoop [[1, 2], [3]] = [] ++ [[1, 2, 3]] ++ [] ∧
    [[1, 2, 3]].length ≤ sync_channel_capacity 4194304 ∧
    totalBytes [[1, 2, 3]] ≤ 4194304 :=
  ⟨by decide, by decide,
    pjoin_channel_byte_bound 4194304 [[1, 2], [3]] [[1, 2, 3]] [] []
      (by decide) (by decide)⟩

/-- C3 counterexample (S3 variant): the s3pjoin producer forwards body frames
unchanged, and nothing bounds a frame's size; one frame of
`DEFAULT_BUFFER_SIZE + 1` bytes is a reachable channel state (the default
capacity is 512 ≥ 1) holding more than `buffer_size` bytes. -/
theorem s3_channel_byte_bound_cex :
    s3ProduceLoop [List.replicate (DEFAULT_BUFFER_SIZE + 1) 37]
        = [] ++ [List.replicate (DEFAULT_BUFFER_SIZE + 1) 37] ++ [] ∧
    [List.replicate (DEFAULT_BUFFER_SIZE + 1) 37].length
        ≤ sync_channel_capacity DEFAULT_BUFFER_SIZE ∧
    ¬ totalBytes [List.replicate (DEFAULT_BUFFER_SIZE + 1) 37]
        ≤ DEFAULT_BUFFER_SIZE := by
  refine ⟨by simp [s3ProduceLoop], ?_, ?_⟩
  · show 1 ≤ sync_channel_capacity DEFAULT_BUFFER_SIZE
    decide
  · simp [totalBytes, List.length_replicate]

/-- C4 counterexample: the first `read` returns only 3 bytes (a short read,
far below the 2 MiB chunk capacity), yet no chunk `[1, 2, 3]` is pushed; the
worker keeps reading and pushes one merged chunk at end of stream. -/
theorem short_read_does_not_push_cex :
    produceLoop [[1, 2, 3], [4, 5]] = [[1, 2, 3, 4, 5]] ∧
    produceLoop [[1, 2, 3], [4, 5]] ≠ [[1, 2, 3], [4, 5]] := by
  decide

/-- C4 amended: the worker keeps reading — holding at most the one chunk it
is filling — until the buffer is full or the source ends; consequently every
pushed chunk is non-empty, at most `CHUNK_BUFFER_SIZE` bytes, and every chunk
except possibly the last is exactly full (a partial chunk arises only from
end of stream, never from a short read). -/
theorem producer_chunking (rs : List (List Nat)) :
    (∀ c ∈ produceLoop rs, c.length ≤ CHUNK_BUFFER_SIZE ∧ c ≠ []) ∧
    (∀ c ∈ (produceLoop rs).dropLast, c.length = CHUNK_BUFFER_SIZE) :=
  ⟨produceLoop_chunk_bound rs, produceLoopF_dropLast_full _ rs [] (by simp)⟩

/-- Witness for the amended C4 at a concrete short source. -/
theorem producer_chunking_witness :
    [1, 2] ∈ produceLoop [[1, 2]] ∧
    ([1, 2] : List Nat).length ≤ CHUNK_BUFFER_SIZE ∧ ([1, 2] : List Nat) ≠ [] := by
  refine ⟨by decide, ?_, ?_⟩
  · exact ((producer_chunking [[1, 2]]).1 [1, 2] (by decide)).1
  · exact ((producer_chunking [[1, 2]]).1 [1, 2] (by decide)).2

/-!
## The writer paths (claim C6)

File destination: `file.write_all(&chunk).unwrap()` — the whole chunk is
appended (write_all loops internally until done, or panics).  Stdout
destination: a loop calling `vmsplice` on `&chunk[bytes_written..]`,
advancing `bytes_written` by the returned count until the whole chunk has
been accepted.  The kernel's per-call accepted counts are environment
choices: each call on a blocking pipe moves at least one byte and at most the
remaining slice length.
-/

/-- Bytes the buffered file writer delivers for one chunk (`write_all`). -/
def fileWriter_write (chunk : List Nat) : List Nat :=
  chunk

/-- Bytes the buffered file writer delivers for a sequence of chunks. -/
def fileWriter_run (chunks : List (List Nat)) : List Nat :=
  (chunks.map fileWriter_write).flatten

/-- The `vmsplice` retry loop for one chunk, starting at offset `written`,
with `accepts` the environment's per-call accepted counts (clamped to
`1 ≤ sz ≤ remaining`).  Returns the bytes moved into the pipe, or `none` when
`accepts` runs out before the chunk is fully transferred (the loop would
still be running). -/
def vmsplice_write (chunk : List Nat) : Nat → List Nat → Option (List Nat)
  | written, [] => if chunk.length ≤ written then some [] else none
  | written, a :: rest =>
    if chunk.length ≤ written then some []
    else
      let sz := min (max a 1) (chunk.length - written)
      Option.map (fun out => (chunk.drop written).take sz ++ out)
        (vmsplice_write chunk (written + sz) rest)

/-- The stdout writer over a chunk sequence, one accept schedule per chunk. -/
def vmsplice_run : List (List Nat) → List (List Nat) → Option (List Nat)
  | _, [] => some []
  | [], _ :: _ => none
  | s :: ss, c :: cs =>
    match vmsplice_write c 0 s, vmsplice_run ss cs with
    | some o, some os => some (o ++ os)
    | _, _ => none

/-- Whatever the kernel's accepted counts, a completed `vmsplice` loop has
delivered exactly the chunk's bytes from the starting offset on. -/
theorem vmsplice_write_some (accepts : List Nat) :
    ∀ (chunk out : List Nat) (written : Nat),
      vmsplice_write chunk written accepts = some out →
      out = chunk.drop written := by
  induction accepts with
  | nil =>
    intro chunk out written h
    simp only [vmsplice_write] at h
    by_cases hd : chunk.length ≤ written
    · simp only [hd, if_true, Option.some_inj] at h
      rw [← h, List.drop_eq_nil_of_le hd]
    · simp [hd] at h
  | cons a rest ih =>
    intro chunk out written h
    simp only [vmsplice_write] at h
    by_cases hd : chunk.length ≤ written
    · simp only [hd, if_true, Option.some_inj] at h
      rw [← h, List.drop_eq_nil_of_le hd]
    · simp only [hd, if_false, Option.map_eq_some'] at h
      obtain ⟨o2, ho2, rfl⟩ := h
      rw [ih chunk o2 _ ho2, ← List.drop_drop, List.take_append_drop]

/-- With one byte accepted per call the loop completes and delivers the whole
remainder: the loop really does retry until the entire chunk is accepted. -/
theorem vmsplice_write_ones (k : Nat) :
    ∀ (chunk : List Nat) (written : Nat),
      chunk.length ≤ written + k →
      vmsplice_write chunk written (List.replicate k 1)
        = some (chunk.drop written) := by
  induction k with
  | zero =>
    intro chunk written h
    rw [Nat.add_zero] at h
    simp [List.replicate, vmsplice_write, h, List.drop_eq_nil_of_le h]
  | succ k ih =>
    intro chunk written h
    simp only [List.replicate, vmsplice_write]
    by_cases hd : chunk.length ≤ written
    · simp [hd, List.drop_eq_nil_of_le hd]
    · have hsz : min (max 1 1) (chunk.length - written) = 1 := by omega
      simp only [hd, if_false, hsz]
      rw [ih chunk (written + 1) (by omega)]
      simp only [Option.map_some', Option.some_inj]
      rw [← List.drop_drop, List.take_append_drop]

/-- C6: the stdout zero-copy writer retries `vmsplice`, advancing its offset
by the accepted count, until the whole chunk is accepted (with some schedule
— e.g. one byte per call — it always completes), and any completed run
delivers to the pipe exactly the bytes the buffered file writer would
deliver for the same chunk sequence. -/
theorem vmsplice_equiv_buffered :
    (∀ (scheds chunks : List (List Nat)) (out : List Nat),
        vmsplice_run scheds chunks = some out → out = fileWriter_run chunks) ∧
    (∀ chunk : List Nat,
        vmsplice_write chunk 0 (List.replicate chunk.length 1) = some chunk) := by
  constructor
  · intro scheds chunks
    induction chunks generalizing scheds with
    | nil =>
      intro out h
      simp only [vmsplice_run, Option.some_inj] at h
      simp [← h, fileWriter_run]
    | cons c cs ih =>
      intro out h
      match scheds with
      | [] => simp [vmsplice_run] at h
      | s :: ss =>
        simp only [vmsplice_run] at h
        rcases h1 : vmsplice_write c 0 s with _ | o <;> rw [h1] at h
        · simp at h
        · rcases h2 : vmsplice_run ss cs with _ | os <;> rw [h2] at h
          · simp at h
          · simp only [Option.some_inj] at h
            have ho := vmsplice_write_some s c o 0 h1
            rw [List.drop_zero] at ho
            rw [← h, ho, ih ss os h2]
            simp [fileWriter_run, fileWriter_write]
  · intro chunk
    rw [vmsplice_write_ones chunk.length chunk 0 (by omega), List.drop_zero]

/-- Witness for C6 at a concrete chunk sequence and accept schedule with
partial transfers. -/
theorem vmsplice_equiv_buffered_witness :
    vmsplice_run [[2, 5], [1]] [[1, 2, 3], [4]] = some [1, 2, 3, 4] ∧
    [1, 2, 3, 4] = fileWriter_run [[1, 2, 3], [4]] :=
  ⟨by decide,
    vmsplice_equiv_buffered.1 [[2, 5], [1]] [[1, 2, 3], [4]] [1, 2, 3, 4]
      (by decide)⟩

/-!
## Argument parsing and the P = 0 configuration (claim C8)
-/

/-- The `Args` struct of both binaries. -/
structure Args where
  parallel_count : Nat
  buffer_size : Nat
  output_file : Option (List Char)
deriving DecidableEq, Repr

/-- Models `Args::parse` (the clap derive) applied to well-typed flag values:
every usize — including 0 — is accepted for `parallel_count` and
`buffer_size`, and `main` performs no further validation of either.  A
startup rejection would be `none`; no input produces it. -/
def parse_args (parallel_count buffer_size : Nat)
    (output_file : Option (List Char)) : Option Args :=
  some ⟨parallel_count, buffer_size, output_file⟩

/-- C8 counterexample: `parallel_count = 0` is accepted at startup; the run
then hangs with an empty trace (`buffered(0)` never polls its input stream
and never yields, so `block_on` pends forever) instead of being rejected. -/
theorem p_zero_not_rejected_cex :
    parse_args 0 DEFAULT_BUFFER_SIZE none
        = some ⟨0, DEFAULT_BUFFER_SIZE, none⟩ ∧
    (runMain 0 [⟨[[1]], true⟩]).2 = Outcome.hang ∧
    (runMain 0 [⟨[[1]], true⟩]).1 = [] := by
  decide

/-- C8 amended: no startup validation of `parallel_count` exists — `P = 0`
is accepted by parsing, and every run with `P = 0` launches no task, writes
no byte and never terminates. -/
theorem p_zero_accepted_then_hangs (buffer_size : Nat)
    (output_file : Option (List Char)) (tasks : List PTask) :
    (parse_args 0 buffer_size output_file).isSome = true ∧
    (runMain 0 tasks).2 = Outcome.hang ∧
    (runMain 0 tasks).1 = [] ∧
    outputBytes (runMain 0 tasks).1 = [] := by
  refine ⟨rfl, ?_, ?_, ?_⟩ <;>
    cases tasks <;>
    simp [runMain, runFrom, outputBytes, writesOf]

/-!
## Admission of one input record in the subprocess variant (claim C10)

At src/pjoin/src/main.rs lines 62-63 each input line is split with
`shlex::split(&full_command).unwrap()` and then `&split_commands[0]` is
indexed unconditionally.  `shlex` is an external crate; its `split` is
modelled below from its documented POSIX-style semantics: whitespace
separates words, single and double quotes group characters, an unterminated
quote makes the whole split fail (`None`), and — the behaviour claim C10
turns on — a line with no word at all splits to `Some(vec![])`.  Backslash
escape handling is omitted; no input this development evaluates contains a
backslash. -/

/-- Scanner state for the shlex model. -/
inductive ShMode where
  | delim : ShMode
  | word : ShMode
  | single : ShMode
  | double : ShMode
deriving DecidableEq, Repr

/-- The single-quote character. -/
def squoteChar : Char := Char.ofNat 39

/-- The double-quote character. -/
def dquoteChar : Char := Char.ofNat 34

/-- Word-separating whitespace (space, tab, newline). -/
def isShWhitespace (c : Char) : Bool :=
  c = ' ' || c = Char.ofNat 9 || c = Char.ofNat 10

/-- One pass of the shlex scanner: `mode` is the current state and `cur` the
word being accumulated. -/
def shlexScan : List Char → ShMode → List Char → Option (List (List Char))
  | [], ShMode.delim, _ => some []
  | [], ShMode.word, cur => some [cur]
  | [], ShMode.single, _ => none
  | [], ShMode.double, _ => none
  | c :: rest, ShMode.delim, _ =>
    if isShWhitespace c then shlexScan rest ShMode.delim []
    else if c = squoteChar then shlexScan rest ShMode.single []
    else if c = dquoteChar then shlexScan rest ShMode.double []
    else shlexScan rest ShMode.word [c]
  | c :: rest, ShMode.word, cur =>
    if isShWhitespace c then
      Option.map (fun ws => cur :: ws) (shlexScan rest ShMode.delim [])
    else if c = squoteChar then shlexScan rest ShMode.single cur
    else if c = dquoteChar then shlexScan rest ShMode.double cur
    else shlexScan rest ShMode.word (cur ++ [c])
  | c :: rest, ShMode.single, cur =>
    if c = squoteChar then shlexScan rest ShMode.word cur
    else shlexScan rest ShMode.single (cur ++ [c])
  | c :: rest, ShMode.double, cur =>
    if c = dquoteChar then shlexScan rest ShMode.word cur
    else shlexScan rest ShMode.double (cur ++ [c])

/-- Models the shlex crate's `split` applied to one input line. -/
def shlex_split (line : List Char) : Option (List (List Char)) :=
  shlexScan line ShMode.delim []

/-- What the admission step does with one record: panic from the `unwrap` on
a failed parse, panic from the out-of-bounds `[0]` index on an empty word
list, or build the command. -/
inductive AdmitResult where
  | panicIndex : AdmitResult
  | panicParse : AdmitResult
  | launch : List Char → List (List Char) → AdmitResult
deriving DecidableEq, Repr

/-- Models src/pjoin/src/main.rs lines 62-67: split the line, `unwrap`, then
`Command::new(&split_commands[0])` with `.args(&split_commands[1..])`. -/
def admitRecord (line : List Char) : AdmitResult :=
  match shlex_split line with
  | none => AdmitResult.panicParse
  | some [] => AdmitResult.panicIndex
  | some (w :: ws) => AdmitResult.launch w ws

/-- C10: a blank input line — empty or whitespace-only — splits to an empty
word list, so the unconditional `[0]` index panics with an out-of-bounds
error (not a parse error); a non-blank line launches normally. -/
theorem blank_line_index_panic :
    admitRecord [] = AdmitResult.panicIndex ∧
    admitRecord [' ', ' '] = AdmitResult.panicIndex ∧
    shlex_split [] = some [] ∧
    admitRecord ['l', 's'] = AdmitResult.launch ['l', 's'] [] := by
  decide
